import Mathlib

/-
Verification of the algorithmic core of cpp-unicodelib (src/unicodelib.cpp).

Conventions of the embedding:
- A Unicode scalar is a Nat; a text is a List Nat.  The C++ API passes
  (const char32_t *, size_t); we pass the corresponding list, and loop
  indices become either explicit Nat indices or structural recursion over
  the remaining suffix of the list.
- The property tables (unicodelib_data.h, generated from the UCD) are not
  part of the algorithmic source; per the specification they are inputs
  with a pure lookup contract.  Every algorithm is therefore parametrized
  over the table functions it reads.
- Array accesses that the C++ code can perform out of range are embedded
  through Option: a function that can read s32[k] with k outside [0, len)
  returns none on the execution paths that do so.
- All arithmetic on scalars is small (below 2^21), so Nat faithfully
  models the C++ int/char32_t arithmetic on the reachable values; where
  the C++ computes a possibly negative int (e.g. "int LIndex = last -
  LBase" guarded by "0 <= LIndex"), the guard is rendered as the
  equivalent comparison on Nat before the subtraction is used.
-/

namespace Unicodelib

/-! ## Hangul constants (unicodelib.cpp, hangul namespace) -/

def SBase : Nat := 0xAC00
def LBase : Nat := 0x1100
def VBase : Nat := 0x1161
def TBase : Nat := 0x11A7
def LCount : Nat := 19
def VCount : Nat := 21
def TCount : Nat := 28
def NCount : Nat := VCount * TCount
def SCount : Nat := LCount * NCount

/-- hangul::is_precomposed_syllable. -/
def is_precomposed_syllable (cp : Nat) : Bool :=
  SBase ≤ cp && cp < SBase + SCount

/-- hangul::is_decomposed_syllable: first two scalars are L then V, or an
LV-form syllable then a scalar in the [TBase, TBase+TCount) range. -/
def is_decomposed_syllable (s : List Nat) : Bool :=
  match s with
  | first :: second :: _ =>
    (LBase ≤ first && first < LBase + LCount &&
     VBase ≤ second && second < VBase + VCount) ||
    (SBase ≤ first && first < SBase + SCount && (first - SBase) % TCount == 0 &&
     TBase ≤ second && second < TBase + TCount)
  | _ => false

/-- hangul::decompose_hangul: arithmetic decomposition of a precomposed
syllable; the T jamo is appended only when it differs from TBase. -/
def decompose_hangul (cp : Nat) : List Nat :=
  let SIndex := cp - SBase
  let L := LBase + SIndex / NCount
  let V := VBase + SIndex % NCount / TCount
  let T := TBase + SIndex % TCount
  if T ≠ TBase then [L, V, T] else [L, V]

/-- The loop of hangul::compose_hangul, carrying the current syllable
(the C++ "last", the single scalar written to the output) and the count
of consumed scalars (the C++ "i").  The C++ guards "0 <= LIndex && LIndex
< LCount" on "int LIndex = last - LBase" become range checks on the
scalars; note the second branch keeps the source's inclusive bound
"TIndex <= TCount". -/
def compose_hangul_loop : List Nat → Nat → Nat → Nat × Nat
  | [], last, i => (i, last)
  | ch :: rest, last, i =>
    if LBase ≤ last ∧ last < LBase + LCount ∧
       VBase ≤ ch ∧ ch < VBase + VCount then
      compose_hangul_loop rest
        (SBase + ((last - LBase) * VCount + (ch - VBase)) * TCount) (i + 1)
    else if SBase ≤ last ∧ last < SBase + SCount ∧
            (last - SBase) % TCount = 0 ∧
            TBase ≤ ch ∧ ch ≤ TBase + TCount then
      compose_hangul_loop rest (last + (ch - TBase)) (i + 1)
    else (i, last)

/-- hangul::compose_hangul: returns (number of scalars consumed, the one
syllable scalar appended to the output).  Callers guarantee a nonempty
input (compose only calls it when is_decomposed_syllable holds, which
needs length at least 2); the [] branch is dead code. -/
def compose_hangul (s : List Nat) : Nat × Nat :=
  match s with
  | [] => (0, 0)
  | c :: rest => compose_hangul_loop rest c 1

/-! ## Case-mapping context predicate More_Above (is_more_above)

The C++ scans with "auto pos = static_cast<int>(i) - 1;
while (pos < l && !has_class_230_or_0(s32[pos])) pos++;
if (pos < l && combining_class(s32[pos]) != 230) return false; return true;".
The loop body walks positions i-1, i, i+1, ... of the text, so the
embedding recurses over the suffix starting at index i-1; when i = 0 the
very first guard evaluation reads s32[-1], out of range. -/

/-- has_class_230_or_0. -/
def has_class_230_or_0 (ccc : Nat → Nat) (cp : Nat) : Bool :=
  ccc cp == 230 || ccc cp == 0

/-- The while loop of is_more_above together with the check after it,
over the suffix of the text that starts at the loop position.  Running
past the end makes the final "pos < l" guard false, so the C++ returns
true. -/
def more_above_loop (ccc : Nat → Nat) : List Nat → Bool
  | [] => true
  | c :: rest =>
    if has_class_230_or_0 ccc c then ccc c == 230 else more_above_loop ccc rest

/-- is_more_above: the source starts the scan at position i - 1.  At
i = 0 the loop guard reads s32[-1] (out of range), embedded as none. -/
def is_more_above (ccc : Nat → Nat) (s : List Nat) (i : Nat) : Option Bool :=
  if i = 0 then none
  else some (more_above_loop ccc (s.drop (i - 1)))

/-- Modelled from the spec: the More_Above context predicate scans
rightward from position i+1, skipping scalars whose combining class is
neither 0 nor 230, and holds iff the first scalar with class in {0, 230}
exists and has class 230 (false when the scan reaches the end). -/
def more_above_spec_loop (ccc : Nat → Nat) : List Nat → Bool
  | [] => false
  | c :: rest =>
    if ccc c == 230 then true
    else if ccc c == 0 then false
    else more_above_spec_loop ccc rest

/-- Modelled from the spec: More_Above evaluated at position i of s. -/
def more_above_spec (ccc : Nat → Nat) (s : List Nat) (i : Nat) : Bool :=
  more_above_spec_loop ccc (s.drop (i + 1))

/-! ## General category predicates and the combining-sequence analyzer -/

inductive GeneralCategory
  | Lu | Ll | Lt | Lm | Lo
  | Mn | Mc | Me
  | Nd | Nl | No
  | Pc | Pd | Ps | Pe | Pi | Pf | Po
  | Sm | Sc | Sk | So
  | Zs | Zl | Zp
  | Cc | Cf | Cs | Co | Cn
deriving DecidableEq

/-- is_letter_category. -/
def is_letter_category : GeneralCategory → Bool
  | .Lu | .Ll | .Lt | .Lm | .Lo => true
  | _ => false

/-- is_mark_category. -/
def is_mark_category : GeneralCategory → Bool
  | .Mn | .Mc | .Me => true
  | _ => false

/-- is_number_category. -/
def is_number_category : GeneralCategory → Bool
  | .Nd | .Nl | .No => true
  | _ => false

/-- is_punctuation_category. -/
def is_punctuation_category : GeneralCategory → Bool
  | .Pc | .Pd | .Ps | .Pe | .Pi | .Pf | .Po => true
  | _ => false

/-- is_symbol_category. -/
def is_symbol_category : GeneralCategory → Bool
  | .Sm | .Sc | .Sk | .So => true
  | _ => false

def ZERO_WIDTH_JOINER : Nat := 0x200D
def ZERO_WIDTH_NON_JOINER : Nat := 0x200C

/-- is_base_character, over the General_Category table gc. -/
def is_base_character (gc : Nat → GeneralCategory) (cp : Nat) : Bool :=
  match gc cp with
  | .Zs => true
  | g =>
    is_letter_category g || is_number_category g ||
    is_punctuation_category g || is_symbol_category g

/-- is_mark = is_mark_category of the general category. -/
def is_mark (gc : Nat → GeneralCategory) (cp : Nat) : Bool :=
  is_mark_category (gc cp)

/-- is_combining_character. -/
def is_combining_character (gc : Nat → GeneralCategory) (cp : Nat) : Bool :=
  is_mark gc cp

inductive GraphemeBreak
  | Other | CR | LF | Control | Extend | ZWJ | Regional_Indicator | Prepend
  | SpacingMark | L | V | T | LV | LVT
deriving DecidableEq

/-- The "while (i < l && prop[s32[i]] == p) i++;" loops of
is_standard_korean_syllable_block, over the remaining suffix; returns the
suffix after the run and the index just past it. -/
def skip_gbp_run (gbp : Nat → GraphemeBreak) (p : GraphemeBreak) :
    List Nat → Nat → List Nat × Nat
  | [], i => ([], i)
  | c :: rest, i =>
    if gbp c = p then skip_gbp_run gbp p rest (i + 1) else (c :: rest, i)

/-- The trailing loop of is_standard_korean_syllable_block:
"while (i < l || prop[s32[i]] == T) i++;".  While i < l the first
disjunct short-circuits to true and the body runs without reading the
property, so every remaining scalar is consumed; when i reaches l the
second disjunct evaluates prop[s32[i]] with i = l, an out-of-range read,
embedded as none.  (The gbp table is never consulted on an in-range
position, hence the unused parameter.) -/
def kssb_t_loop (_gbp : Nat → GraphemeBreak) : Nat → List Nat → Option Nat
  | _, [] => none
  | i, _ :: rest => kssb_t_loop _gbp (i + 1) rest

/-- is_standard_korean_syllable_block.  Result: none = out-of-range read;
some none = returned false; some (some len) = returned true with the
given block length. -/
def is_standard_korean_syllable_block (gbp : Nat → GraphemeBreak)
    (s : List Nat) : Option (Option Nat) :=
  match s with
  | [] => some none
  | c0 :: rest0 =>
    if gbp c0 ≠ GraphemeBreak.L then some none
    else
      match skip_gbp_run gbp GraphemeBreak.L rest0 1 with
      | (s1, i1) =>
        match s1 with
        | [] => some none
        | c1 :: rest1 =>
          if gbp c1 ≠ GraphemeBreak.V then some none
          else
            match skip_gbp_run gbp GraphemeBreak.V rest1 (i1 + 1) with
            | (s2, i2) =>
              match kssb_t_loop gbp i2 s2 with
              | none => none
              | some len => some (some len)

/-- is_extended_base.  Result conventions as above; some (some len) also
covers the base-character case with len = 1. -/
def is_extended_base (gc : Nat → GeneralCategory) (gbp : Nat → GraphemeBreak)
    (s : List Nat) : Option (Option Nat) :=
  match s with
  | [] => some none
  | c0 :: _ =>
    match is_standard_korean_syllable_block gbp s with
    | none => none
    | some (some len) => some (some len)
    | some none =>
      if is_base_character gc c0 then some (some 1) else some none

/-- The trailing combining/ZWJ/ZWNJ loop shared by
combining_character_sequence_length and
extended_combining_character_sequence_length, counting consumed
scalars from the front of the given suffix. -/
def combining_tail_count (gc : Nat → GeneralCategory) : List Nat → Nat
  | [] => 0
  | cp :: rest =>
    if is_combining_character gc cp || cp == ZERO_WIDTH_JOINER ||
       cp == ZERO_WIDTH_NON_JOINER then
      1 + combining_tail_count gc rest
    else 0

/-- extended_combining_character_sequence_length. -/
def extended_combining_character_sequence_length (gc : Nat → GeneralCategory)
    (gbp : Nat → GraphemeBreak) (s : List Nat) : Option Nat :=
  match s with
  | [] => some 0
  | _ :: _ =>
    match is_extended_base gc gbp s with
    | none => none
    | some r =>
      let i := r.getD 0
      some (i + combining_tail_count gc (s.drop i))

/-! ## Case folding (case_folding / to_case_fold) -/

/-- One _case_foldings table entry: the C, F, S and T sequences, each
possibly absent (null in the C++ struct). -/
structure CaseFolding where
  C : Option (List Nat)
  F : Option (List Nat)
  S : Option (List Nat)
  T : Option (List Nat)

/-- case_folding: per-scalar folding.  The C++ appends to the output the
first present alternative among (T if the turkic flag), F, S, C, and
falls through to the scalar itself when the scalar has no table entry or
no branch fires. -/
def case_folding (cftbl : Nat → Option CaseFolding) (turkic : Bool)
    (cp : Nat) : List Nat :=
  match cftbl cp with
  | some cf =>
    if turkic && (cf.T).isSome then (cf.T).getD []
    else
      match cf.F with
      | some f => f
      | none =>
        match cf.S with
        | some s => s
        | none =>
          match cf.C with
          | some c => c
          | none => [cp]
  | none => [cp]

/-- to_case_fold: concatenation of case_folding over the scalars. -/
def to_case_fold (cftbl : Nat → Option CaseFolding) (turkic : Bool) :
    List Nat → List Nat
  | [] => []
  | c :: rest => case_folding cftbl turkic c ++ to_case_fold cftbl turkic rest

/-- Modelled from the spec: the per-scalar folding choice exactly as the
claim words it, phrased through the presence of the T/F/S/C mappings for
the scalar (absent table entry = all four absent). -/
def fold_choice_spec (cftbl : Nat → Option CaseFolding) (turkic : Bool)
    (cp : Nat) : List Nat :=
  let mT := (cftbl cp).bind CaseFolding.T
  let mF := (cftbl cp).bind CaseFolding.F
  let mS := (cftbl cp).bind CaseFolding.S
  let mC := (cftbl cp).bind CaseFolding.C
  if turkic ∧ mT.isSome then mT.getD []
  else if mF.isSome then mF.getD []
  else if mS.isSome then mS.getD []
  else if mC.isSome then mC.getD []
  else [cp]

/-! ## Normalization engine -/

inductive NormForm
  | NFC | NFD | NFKC | NFKD
deriving DecidableEq

/-- One _normalization_properties record: the canonical combining class,
whether the decomposition carries a compatibility format tag, and the
decomposition mapping (none = null codes pointer). -/
structure NormProp where
  combining_class : Nat
  compat_format : Bool
  codes : Option (List Nat)

/-- The decomposition phase of decompose: decompose_code applied to each
scalar of the list in order, outputs concatenated.  decompose_code
recurses into the scalars of a table decomposition; the fuel bounds that
recursion depth (the C++ recursion is unbounded and terminates only
because real tables are finite and acyclic), and exhausting it is
embedded as none.  Note the fuel is not consumed by the Hangul branch or
by moving to the next scalar of the same list. -/
def decompose_run (tbl : Nat → NormProp) (norm : NormForm) :
    Nat → List Nat → Option (List Nat)
  | _, [] => some []
  | fuel, cp :: rest =>
    (if is_precomposed_syllable cp then some (decompose_hangul cp)
     else
       match (tbl cp).codes with
       | some codes =>
         if (tbl cp).compat_format = false ∨ norm = NormForm.NFKC ∨
            norm = NormForm.NFKD then
           match fuel with
           | 0 => none
           | fuel' + 1 => decompose_run tbl norm fuel' codes
         else some [cp]
       | none => some [cp]).bind
      (fun h => (decompose_run tbl norm fuel rest).map (fun t => h ++ t))
termination_by fuel l => (fuel, l.length)

/-- The inner loop of the canonical reordering pass of decompose: the
element c (whose combining class is positive) bubbles left past every
element with strictly greater combining class.  The processed prefix is
carried in reverse, so its head is the element immediately to the left
of c. -/
def ccc_bubble (ccc : Nat → Nat) (c : Nat) : List Nat → List Nat
  | [] => [c]
  | p :: rest =>
    if ccc p ≤ ccc c then c :: p :: rest else p :: ccc_bubble ccc c rest

/-- The canonical reordering pass of decompose, with the result in
reverse order.  The C++ walks positions 0..len-1 of the buffer; at each
step the elements to the right of the current position are still
untouched and the processed prefix is in place to its left, so the pass
is the left fold that either bubbles the next element into the prefix
(combining class > 0) or lays it down as is. -/
def reorder_rev (ccc : Nat → Nat) (s : List Nat) : List Nat :=
  s.foldl (fun acc c => if 0 < ccc c then ccc_bubble ccc c acc else c :: acc) []

/-- The canonical reordering pass of decompose. -/
def reorder (ccc : Nat → Nat) (s : List Nat) : List Nat :=
  (reorder_rev ccc s).reverse

/-- combining_class reads the normalization table. -/
def combining_class (tbl : Nat → NormProp) (cp : Nat) : Nat :=
  (tbl cp).combining_class

/-- decompose: full expansion followed by canonical reordering. -/
def decompose (tbl : Nat → NormProp) (norm : NormForm) (fuel : Nat)
    (s : List Nat) : Option (List Nat) :=
  match decompose_run tbl norm fuel s with
  | some out => some (reorder (combining_class tbl) out)
  | none => none

/-- The inner for loop of compose_codes: scan from index i for the next
scalar to compose with the current starter.  Returns some (starter',
checked') when a composition fired (the C++ sets handled and breaks),
none when the loop ran to its end or broke on a class-0 scalar. -/
def compose_scan (tbl : Nat → NormProp) (comp : Nat → Nat → Option Nat)
    (s : List Nat) (starter : Nat) (checked : List Bool) (maxClass : Int)
    (i : Nat) : Option (Nat × List Bool) :=
  if h : i < s.length then
    if checked.getD i false then
      compose_scan tbl comp s starter checked maxClass (i + 1)
    else
      let c := s.get ⟨i, h⟩
      let klass : Int := ((tbl c).combining_class : Int)
      if maxClass < klass then
        match comp starter c with
        | some st => some (st, checked.set i true)
        | none =>
          if klass = 0 then none
          else compose_scan tbl comp s starter checked (max maxClass klass) (i + 1)
      else if klass = 0 then none
      else compose_scan tbl comp s starter checked (max maxClass klass) (i + 1)
  else none
termination_by s.length - i

/-- The "while (handled)" restart loop of compose_codes.  Every restart
marks one more index as checked, so the number of iterations is at most
s.length + 1; the fuel passed by compose_codes is s.length + 1 and can
therefore not run out. -/
def compose_restart (tbl : Nat → NormProp) (comp : Nat → Nat → Option Nat)
    (s : List Nat) : Nat → Nat → List Bool → Nat × List Bool
  | 0, starter, checked => (starter, checked)
  | fuel + 1, starter, checked =>
    match compose_scan tbl comp s starter checked (-1) 1 with
    | some (st, ch) => compose_restart tbl comp s fuel st ch
    | none => (starter, checked)

/-- The output loop of compose_codes: emit the unconsumed scalars after
the starter up to (excluding) the next class-0 scalar, and report the
index reached (the number of scalars of the run). -/
def compose_output (tbl : Nat → NormProp) (s : List Nat)
    (checked : List Bool) (i : Nat) : List Nat × Nat :=
  if h : i < s.length then
    if checked.getD i false then compose_output tbl s checked (i + 1)
    else if (tbl (s.get ⟨i, h⟩)).combining_class = 0 then ([], i)
    else
      let r := compose_output tbl s checked (i + 1)
      (s.get ⟨i, h⟩ :: r.1, r.2)
  else ([], i)
termination_by s.length - i

/-- compose_codes: starter s[0], successive composition with restart,
then output.  Returns (scalars appended to the output, consumed count).
Callers guarantee a nonempty input. -/
def compose_codes (tbl : Nat → NormProp) (comp : Nat → Nat → Option Nat)
    (s : List Nat) : List Nat × Nat :=
  match s with
  | [] => ([], 0)
  | c :: _ =>
    let r := compose_restart tbl comp s (s.length + 1) c
        (List.replicate s.length false)
    let o := compose_output tbl s r.2 1
    (r.1 :: o.1, o.2)

theorem compose_hangul_loop_ge (rest : List Nat) (last i : Nat) :
    i ≤ (compose_hangul_loop rest last i).1 := by
  induction rest generalizing last i with
  | nil => exact Nat.le_refl i
  | cons ch rest ih =>
    simp only [compose_hangul_loop]
    split
    · exact Nat.le_trans (Nat.le_succ i) (ih _ _)
    · split
      · exact Nat.le_trans (Nat.le_succ i) (ih _ _)
      · exact Nat.le_refl i

theorem compose_output_ge (tbl : Nat → NormProp) (s : List Nat)
    (checked : List Bool) (i : Nat) :
    i ≤ (compose_output tbl s checked i).2 := by
  have key : ∀ n j, s.length - j = n → j ≤ (compose_output tbl s checked j).2 := by
    intro n
    induction n with
    | zero =>
      intro j hj
      rw [compose_output]
      split
      · omega
      · exact Nat.le_refl j
    | succ n ih =>
      intro j hj
      rw [compose_output]
      split
      · split
        · exact Nat.le_trans (Nat.le_succ j) (ih (j + 1) (by omega))
        · split
          · exact Nat.le_refl j
          · exact Nat.le_trans (Nat.le_succ j) (ih (j + 1) (by omega))
      · exact Nat.le_refl j
  exact key (s.length - i) i rfl

/-- compose: walk the sequence; at a decomposed Hangul syllable start run
compose_hangul, otherwise compose_codes; either consumes at least one
scalar, and the walk continues on the remaining suffix. -/
def compose (tbl : Nat → NormProp) (comp : Nat → Nat → Option Nat) :
    List Nat → List Nat
  | [] => []
  | c :: rest =>
    if is_decomposed_syllable (c :: rest) then
      let r := compose_hangul (c :: rest)
      r.2 :: compose tbl comp ((c :: rest).drop r.1)
    else
      let r := compose_codes tbl comp (c :: rest)
      r.1 ++ compose tbl comp ((c :: rest).drop r.2)
termination_by s => s.length
decreasing_by
  · simp only [List.length_drop]
    have h1 : 1 ≤ (compose_hangul (c :: rest)).1 := by
      simpa [compose_hangul] using compose_hangul_loop_ge rest c 1
    simp only [List.length_cons]
    omega
  · simp only [List.length_drop]
    have h1 : 1 ≤ (compose_codes tbl comp (c :: rest)).2 := by
      simpa [compose_codes] using
        compose_output_ge tbl (c :: rest)
          (compose_restart tbl comp (c :: rest) ((c :: rest).length + 1) c
            (List.replicate (c :: rest).length false)).2 1
    simp only [List.length_cons]
    omega

/-- to_nfc = compose of the NFC decomposition. -/
def to_nfc (tbl : Nat → NormProp) (comp : Nat → Nat → Option Nat)
    (fuel : Nat) (s : List Nat) : Option (List Nat) :=
  match decompose tbl NormForm.NFC fuel s with
  | some d => some (compose tbl comp d)
  | none => none

/-- to_nfd. -/
def to_nfd (tbl : Nat → NormProp) (fuel : Nat) (s : List Nat) :
    Option (List Nat) :=
  decompose tbl NormForm.NFD fuel s

/-- to_nfkc. -/
def to_nfkc (tbl : Nat → NormProp) (comp : Nat → Nat → Option Nat)
    (fuel : Nat) (s : List Nat) : Option (List Nat) :=
  match decompose tbl NormForm.NFKC fuel s with
  | some d => some (compose tbl comp d)
  | none => none

/-- to_nfkd. -/
def to_nfkd (tbl : Nat → NormProp) (fuel : Nat) (s : List Nat) :
    Option (List Nat) :=
  decompose tbl NormForm.NFKD fuel s

/-! ## Grapheme cluster segmentation -/

inductive Emoji
  | Other | Extended_Pictographic
deriving DecidableEq

/-- The GB11 leftward scan "pos = i - 2; while (pos >= 0 && gbp[s32[pos]]
== Extend) pos--;".  The int position pos is encoded as the Nat pos + 1,
so 0 stands for pos = -1; every read is at a position below the start
index, which callers keep below the length. -/
def skip_extend_left (gbp : Nat → GraphemeBreak) (s : List Nat) : Nat → Nat
  | 0 => 0
  | p + 1 =>
    if gbp (s.getD p 0) = GraphemeBreak.Extend then skip_extend_left gbp s p
    else p + 1

/-- The GB12/GB13 leftward scan "pos = i - 2; while (pos >= 1 &&
gbp[s32[pos]] == RI && gbp[s32[pos-1]] == RI) pos -= 2;", with the same
pos + 1 encoding. -/
def ri_scan_left (gbp : Nat → GraphemeBreak) (s : List Nat) : Nat → Nat
  | 0 => 0
  | 1 => 1
  | p + 2 =>
    if gbp (s.getD (p + 1) 0) = GraphemeBreak.Regional_Indicator ∧
       gbp (s.getD p 0) = GraphemeBreak.Regional_Indicator then
      ri_scan_left gbp s p
    else p + 2

/-- is_grapheme_boundary: the GB1..GB999 rule chain, first match wins.
For 0 < i < length both s32[i-1] and s32[i] are in range, so the getD
defaults are never taken on the contractual inputs (0 ≤ i ≤ length). -/
def is_grapheme_boundary (gbp : Nat → GraphemeBreak) (emoji : Nat → Emoji)
    (s : List Nat) (i : Nat) : Bool :=
  if i = 0 then true
  else if i = s.length then true
  else
    let lp := gbp (s.getD (i - 1) 0)
    let rp := gbp (s.getD i 0)
    if lp = GraphemeBreak.CR ∧ rp = GraphemeBreak.LF then false
    else if lp = GraphemeBreak.Control ∨ lp = GraphemeBreak.CR ∨
            lp = GraphemeBreak.LF then true
    else if rp = GraphemeBreak.Control ∨ rp = GraphemeBreak.CR ∨
            rp = GraphemeBreak.LF then true
    else if lp = GraphemeBreak.L ∧
            (rp = GraphemeBreak.L ∨ rp = GraphemeBreak.V ∨
             rp = GraphemeBreak.LV ∨ rp = GraphemeBreak.LVT) then false
    else if (lp = GraphemeBreak.LV ∨ lp = GraphemeBreak.V) ∧
            (rp = GraphemeBreak.V ∨ rp = GraphemeBreak.T) then false
    else if (lp = GraphemeBreak.LVT ∨ lp = GraphemeBreak.T) ∧
            rp = GraphemeBreak.T then false
    else if rp = GraphemeBreak.Extend ∨ rp = GraphemeBreak.ZWJ then false
    else if rp = GraphemeBreak.SpacingMark then false
    else if lp = GraphemeBreak.Prepend then false
    else if lp = GraphemeBreak.ZWJ ∧
            emoji (s.getD i 0) = Emoji.Extended_Pictographic ∧
            (let q := skip_extend_left gbp s (i - 1)
             1 ≤ q ∧ emoji (s.getD (q - 1) 0) = Emoji.Extended_Pictographic)
         then false
    else if lp = GraphemeBreak.Regional_Indicator ∧
            rp = GraphemeBreak.Regional_Indicator ∧
            (let q := ri_scan_left gbp s (i - 1)
             q = 0 ∨ gbp (s.getD (q - 1) 0) ≠ GraphemeBreak.Regional_Indicator)
         then false
    else true

/-- The loop of grapheme_length: "size_t i = 1; for (; i < l; i++) if
(is_grapheme_boundary(s32, l, i)) return i; return i;". -/
def grapheme_length_loop (gbp : Nat → GraphemeBreak) (emoji : Nat → Emoji)
    (s : List Nat) (i : Nat) : Nat :=
  if i < s.length then
    if is_grapheme_boundary gbp emoji s i then i
    else grapheme_length_loop gbp emoji s (i + 1)
  else i
termination_by s.length - i

/-- grapheme_length. -/
def grapheme_length (gbp : Nat → GraphemeBreak) (emoji : Nat → Emoji)
    (s : List Nat) : Nat :=
  grapheme_length_loop gbp emoji s 1

theorem grapheme_length_loop_ge (gbp : Nat → GraphemeBreak)
    (emoji : Nat → Emoji) (s : List Nat) (i : Nat) :
    i ≤ grapheme_length_loop gbp emoji s i := by
  have key : ∀ n j, s.length - j = n →
      j ≤ grapheme_length_loop gbp emoji s j := by
    intro n
    induction n with
    | zero =>
      intro j hj
      rw [grapheme_length_loop]
      split
      · split
        · exact Nat.le_refl j
        · omega
      · exact Nat.le_refl j
    | succ n ih =>
      intro j hj
      rw [grapheme_length_loop]
      split
      · split
        · exact Nat.le_refl j
        · exact Nat.le_trans (Nat.le_succ j) (ih (j + 1) (by omega))
      · exact Nat.le_refl j
  exact key (s.length - i) i rfl

theorem one_le_grapheme_length (gbp : Nat → GraphemeBreak)
    (emoji : Nat → Emoji) (s : List Nat) :
    1 ≤ grapheme_length gbp emoji s :=
  grapheme_length_loop_ge gbp emoji s 1

/-- grapheme_count: "while (i < l) { count++; i += grapheme_length(s32 +
i, l - i); }", as recursion on the remaining suffix. -/
def grapheme_count (gbp : Nat → GraphemeBreak) (emoji : Nat → Emoji) :
    List Nat → Nat
  | [] => 0
  | c :: rest =>
    1 + grapheme_count gbp emoji
        ((c :: rest).drop (grapheme_length gbp emoji (c :: rest)))
termination_by s => s.length
decreasing_by
  simp only [List.length_drop, List.length_cons]
  have h1 := one_le_grapheme_length gbp emoji (c :: rest)
  omega

/-! ## Concrete table instances used by the closed theorems

Small concrete instantiations of the table parameters, agreeing with the
Unicode Character Database on the scalars they are applied to: U+0300
has combining class 230, U+1100 has Grapheme_Break L, U+1161 has
Grapheme_Break V, U+0041 is Lu with combining class 0 and no
decomposition. -/

def ccc_ex (cp : Nat) : Nat := if cp = 0x300 then 230 else 0

def gbp_ex (cp : Nat) : GraphemeBreak :=
  if cp = 0x1100 then GraphemeBreak.L
  else if cp = 0x1161 then GraphemeBreak.V
  else GraphemeBreak.Other

def gc_ex (_ : Nat) : GeneralCategory := GeneralCategory.Lu

def tbl_zero (_ : Nat) : NormProp := ⟨0, false, none⟩

def comp_none (_ : Nat) (_ : Nat) : Option Nat := none

/-! ## Claim theorems -/

/-- C1: the claim says the More_Above context predicate holds iff the
rightward scan from i+1 (skipping combining classes outside {0, 230})
first meets a scalar of class 230, and is false when the scan reaches
the end.  The source instead starts the scan at i-1 and returns true
when the scan reaches the end: on the text [U+0300, U+0061] at i = 1 the
code looks at the class-230 scalar at position 0, before the current
position, and answers true where the specified predicate is false; at
i = 0 the code reads s32[-1], out of range. -/
theorem is_more_above_deviates_from_spec :
    is_more_above ccc_ex [0x300, 0x61] 1 = some true ∧
    more_above_spec ccc_ex [0x300, 0x61] 1 = false ∧
    is_more_above ccc_ex [0x61] 0 = none := by
  refine ⟨rfl, rfl, rfl⟩

/-- C2: the claim says the trailing-T run of a standard Korean syllable
block ends at the first scalar whose property is not T (here U+0041),
which is then not consumed, so the extended combining character sequence
[L, V] has length 2.  In the source the loop guard
"while (i < l || prop == T)" consumes every remaining scalar including
U+0041 and then reads s32[l], out of range, embedded as none. -/
theorem eccs_consumes_past_t_run :
    extended_combining_character_sequence_length gc_ex gbp_ex
      [0x1100, 0x1161, 0x41] = none := by
  rfl

/-- C4: the claim says a scalar equal to TBase or to TBase + TCount is
not folded into an LV syllable.  The source's guard "0 <= TIndex &&
TIndex <= TCount" folds both: after L = U+1100 and V = U+1161 have made
the syllable U+AC00, the scalar TBase = U+11A7 is consumed adding 0
(three scalars consumed, the input scalar silently dropped), and the
scalar TBase + TCount = U+11C3 is consumed adding 28 (producing U+AC1C,
a different syllable).  Under the claim both calls would consume only
the two jamos and return (2, 0xAC00). -/
theorem compose_hangul_folds_tbase_and_tbase_plus_tcount :
    compose_hangul [0x1100, 0x1161, 0x11A7] = (3, 0xAC00) ∧
    compose_hangul [0x1100, 0x1161, 0x11C3] = (3, 0xAC1C) := by
  refine ⟨by decide, by decide⟩

/-- C10: the claim says is_standard_korean_syllable_block accesses only
positions 0..l-1, in particular on inputs of one or more L followed by
one or more V.  On exactly such an input, [U+1100, U+1161], the
trailing-T loop guard reads s32[2] with l = 2: the out-of-range branch
is reached, embedded as none. -/
theorem kssb_reads_out_of_range_on_lv :
    is_standard_korean_syllable_block gbp_ex [0x1100, 0x1161] = none := by
  rfl

theorem case_folding_eq_fold_choice_spec (cftbl : Nat → Option CaseFolding)
    (turkic : Bool) (cp : Nat) :
    case_folding cftbl turkic cp = fold_choice_spec cftbl turkic cp := by
  unfold case_folding fold_choice_spec
  cases h : cftbl cp with
  | none => simp
  | some cf =>
    cases cf with
    | mk mc mf ms mt =>
      simp only [Option.bind_some]
      cases turkic <;> cases mt <;> cases mf <;> cases ms <;> cases mc <;> simp

/-- C8: to_case_fold(X, turkic) concatenates, over each scalar c of X in
order, the T mapping when turkic holds and T is present, else the F
mapping when present, else S when present, else C when present, else c
itself. -/
theorem to_case_fold_matches_spec (cftbl : Nat → Option CaseFolding)
    (turkic : Bool) (s : List Nat) :
    to_case_fold cftbl turkic s =
      List.flatten (s.map (fold_choice_spec cftbl turkic)) := by
  induction s with
  | nil => rfl
  | cons c rest ih =>
    simp [to_case_fold, case_folding_eq_fold_choice_spec, ih]

/-! Helper lemmas on the Hangul arithmetic. -/

theorem is_precomposed_syllable_of_range {c : Nat} (h1 : SBase ≤ c)
    (h2 : c < SBase + SCount) : is_precomposed_syllable c = true := by
  simp only [is_precomposed_syllable, Bool.and_eq_true, decide_eq_true_eq]
  exact ⟨h1, h2⟩

theorem decompose_run_single_precomposed (tbl : Nat → NormProp)
    (norm : NormForm) (fuel : Nat) (c : Nat)
    (h : is_precomposed_syllable c = true) :
    decompose_run tbl norm fuel [c] = some (decompose_hangul c) := by
  rw [decompose_run, decompose_run]
  simp [h]

/-- decompose_hangul written with the formula branches keyed on the T
index, matching the specification text (T omitted exactly when T =
TBase, i.e. when (c - SBase) mod TCount = 0). -/
theorem decompose_hangul_eq (c : Nat) :
    decompose_hangul c =
      if (c - SBase) % TCount = 0 then
        [LBase + (c - SBase) / NCount, VBase + (c - SBase) % NCount / TCount]
      else
        [LBase + (c - SBase) / NCount, VBase + (c - SBase) % NCount / TCount,
         TBase + (c - SBase) % TCount] := by
  unfold decompose_hangul
  by_cases h : (c - SBase) % TCount = 0
  · simp [h]
  · rw [if_pos (by omega), if_neg h]

/-- C5: for a precomposed syllable c the decomposition phase emits
exactly the arithmetically computed (L, V) or (L, V, T), with T omitted
exactly when the T index is zero; the result does not depend on the
normalization table, the requested form, or the recursion fuel (no table
lookup); and the output has exactly 2 or 3 scalars. -/
theorem decompose_hangul_follows_formula (tbl tbl2 : Nat → NormProp)
    (norm norm2 : NormForm) (fuel fuel2 : Nat) (c : Nat)
    (h1 : SBase ≤ c) (h2 : c < SBase + SCount) :
    decompose_run tbl norm fuel [c] =
      some (if (c - SBase) % TCount = 0 then
              [LBase + (c - SBase) / NCount,
               VBase + (c - SBase) % NCount / TCount]
            else
              [LBase + (c - SBase) / NCount,
               VBase + (c - SBase) % NCount / TCount,
               TBase + (c - SBase) % TCount]) ∧
    decompose_run tbl norm fuel [c] = decompose_run tbl2 norm2 fuel2 [c] ∧
    ((decompose_hangul c).length = 2 ∨ (decompose_hangul c).length = 3) := by
  have hp := is_precomposed_syllable_of_range h1 h2
  have he := decompose_hangul_eq c
  refine ⟨?_, ?_, ?_⟩
  · rw [decompose_run_single_precomposed tbl norm fuel c hp, he]
  · rw [decompose_run_single_precomposed tbl norm fuel c hp,
        decompose_run_single_precomposed tbl2 norm2 fuel2 c hp]
  · rw [he]
    by_cases h : (c - SBase) % TCount = 0
    · left; simp [h]
    · right; simp [h]

/-- Witness for C5 at c = U+AC01 (self-check of the hypotheses and the
instantiated conclusion). -/
theorem decompose_hangul_follows_formula_witness :
    (SBase ≤ 0xAC01 ∧ 0xAC01 < SBase + SCount) ∧
    (decompose_run tbl_zero NormForm.NFD 0 [0xAC01] =
      some (if (0xAC01 - SBase) % TCount = 0 then
              [LBase + (0xAC01 - SBase) / NCount,
               VBase + (0xAC01 - SBase) % NCount / TCount]
            else
              [LBase + (0xAC01 - SBase) / NCount,
               VBase + (0xAC01 - SBase) % NCount / TCount,
               TBase + (0xAC01 - SBase) % TCount]) ∧
      decompose_run tbl_zero NormForm.NFD 0 [0xAC01] =
        decompose_run tbl_zero NormForm.NFKD 7 [0xAC01] ∧
      ((decompose_hangul 0xAC01).length = 2 ∨
       (decompose_hangul 0xAC01).length = 3)) :=
  ⟨⟨by decide, by decide⟩,
   decompose_hangul_follows_formula tbl_zero tbl_zero NormForm.NFD
     NormForm.NFKD 0 7 0xAC01 (by decide) (by decide)⟩

theorem compose_hangul_decompose_hangul (c : Nat) (h1 : SBase ≤ c)
    (h2 : c < SBase + SCount) :
    compose_hangul (decompose_hangul c) = ((decompose_hangul c).length, c) := by
  rw [decompose_hangul_eq]
  simp only [SBase, LBase, VBase, TBase, LCount, VCount, TCount, NCount,
    SCount] at h1 h2 ⊢
  by_cases ht : (c - 0xAC00) % 28 = 0
  · rw [if_pos ht]
    simp only [compose_hangul, compose_hangul_loop, List.length_cons,
      List.length_nil, SBase, LBase, VBase, TBase, LCount, VCount, TCount,
      NCount, SCount]
    rw [if_pos (by omega)]
    simp only [Prod.mk.injEq, true_and]
    omega
  · rw [if_neg ht]
    simp only [compose_hangul, compose_hangul_loop, List.length_cons,
      List.length_nil, SBase, LBase, VBase, TBase, LCount, VCount, TCount,
      NCount, SCount]
    rw [if_pos (by omega), if_neg (by omega), if_pos (by omega)]
    simp only [Prod.mk.injEq, true_and]
    omega

theorem decompose_hangul_mem_range (c x : Nat) (h1 : SBase ≤ c)
    (h2 : c < SBase + SCount) (hx : x ∈ decompose_hangul c) :
    LBase ≤ x ∧ x < TBase + TCount := by
  rw [decompose_hangul_eq] at hx
  simp only [SBase, LBase, VBase, TBase, LCount, VCount, TCount, NCount,
    SCount] at h1 h2 hx ⊢
  by_cases ht : (c - 0xAC00) % 28 = 0
  · rw [if_pos ht] at hx
    simp only [List.mem_cons, List.not_mem_nil, or_false] at hx
    rcases hx with h | h <;> omega
  · rw [if_neg ht] at hx
    simp only [List.mem_cons, List.not_mem_nil, or_false] at hx
    rcases hx with h | h | h <;> omega

theorem is_decomposed_syllable_decompose_hangul (c : Nat) (h1 : SBase ≤ c)
    (h2 : c < SBase + SCount) :
    is_decomposed_syllable (decompose_hangul c) = true := by
  rw [decompose_hangul_eq]
  simp only [SBase, LBase, VBase, TBase, LCount, VCount, TCount, NCount,
    SCount] at h1 h2 ⊢
  by_cases ht : (c - 0xAC00) % 28 = 0 <;>
    [rw [if_pos ht]; rw [if_neg ht]] <;>
    · simp only [is_decomposed_syllable, Bool.or_eq_true, Bool.and_eq_true,
        decide_eq_true_eq, beq_iff_eq, SBase, LBase, VBase, TBase, LCount,
        VCount, TCount, NCount, SCount]
      left
      omega

theorem foldl_reorder_of_ccc_zero (ccc : Nat → Nat) (l : List Nat) :
    ∀ acc, (∀ x ∈ l, ccc x = 0) →
      List.foldl
        (fun acc c => if 0 < ccc c then ccc_bubble ccc c acc else c :: acc)
        acc l = l.reverse ++ acc := by
  induction l with
  | nil => intro acc _; simp
  | cons c rest ih =>
    intro acc h
    have hc : ccc c = 0 := h c (by simp)
    simp only [List.foldl_cons]
    rw [if_neg (by omega), ih (c :: acc) (fun x hx => h x (by simp [hx]))]
    simp

theorem reorder_of_ccc_zero (ccc : Nat → Nat) (l : List Nat)
    (h : ∀ x ∈ l, ccc x = 0) : reorder ccc l = l := by
  unfold reorder reorder_rev
  rw [foldl_reorder_of_ccc_zero ccc l [] h]
  simp

theorem compose_of_full_syllable (tbl : Nat → NormProp)
    (comp : Nat → Nat → Option Nat) (x : Nat) (rest : List Nat) (c : Nat)
    (hd : is_decomposed_syllable (x :: rest) = true)
    (hc : compose_hangul (x :: rest) = ((x :: rest).length, c)) :
    compose tbl comp (x :: rest) = [c] := by
  rw [compose, if_pos hd, hc]
  simp only [List.drop_length]
  rw [compose]

/-- C3: for every precomposed Hangul syllable c, composing its Hangul
decomposition yields c back, both at the level of the Hangul arithmetic
(compose_hangul of decompose_hangul consumes the whole decomposition and
returns c) and through the full pipeline: to_nfc [c] = [c].  The only
table fact used is that the jamo scalars emitted by the decomposition
are starters (combining class 0), as in the UCD. -/
theorem hangul_round_trip (tbl : Nat → NormProp)
    (comp : Nat → Nat → Option Nat) (fuel : Nat) (c : Nat)
    (h1 : SBase ≤ c) (h2 : c < SBase + SCount)
    (hccc : ∀ j, LBase ≤ j → j < TBase + TCount → combining_class tbl j = 0) :
    compose_hangul (decompose_hangul c) = ((decompose_hangul c).length, c) ∧
    to_nfc tbl comp fuel [c] = some [c] := by
  have hc := compose_hangul_decompose_hangul c h1 h2
  refine ⟨hc, ?_⟩
  unfold to_nfc decompose
  rw [decompose_run_single_precomposed tbl NormForm.NFC fuel c
      (is_precomposed_syllable_of_range h1 h2)]
  simp only
  rw [reorder_of_ccc_zero (combining_class tbl) (decompose_hangul c)
      (fun x hx => by
        have := decompose_hangul_mem_range c x h1 h2 hx
        exact hccc x this.1 this.2)]
  have hd := is_decomposed_syllable_decompose_hangul c h1 h2
  have hne : decompose_hangul c ≠ [] := by
    intro h
    rw [h] at hd
    simp [is_decomposed_syllable] at hd
  obtain ⟨x, rest, hx⟩ := List.exists_cons_of_ne_nil hne
  rw [hx] at hd hc ⊢
  rw [compose_of_full_syllable tbl comp x rest c hd hc]

/-- Witness for C3 at c = U+AC01 with the all-zero table. -/
theorem hangul_round_trip_witness :
    (SBase ≤ 0xAC01 ∧ 0xAC01 < SBase + SCount) ∧
    compose_hangul (decompose_hangul 0xAC01) =
      ((decompose_hangul 0xAC01).length, 0xAC01) ∧
    to_nfc tbl_zero comp_none 0 [0xAC01] = some [0xAC01] :=
  ⟨⟨by decide, by decide⟩,
   hangul_round_trip tbl_zero comp_none 0 0xAC01 (by decide) (by decide)
     (fun j h1 h2 => rfl)⟩

/-! Canonical ordering of the reorder pass: the claim's invariant as a
relation on adjacent scalars. -/

/-- The adjacency invariant of canonical ordering: when the right scalar
has positive combining class, the left one has a smaller or equal class. -/
def ccc_ordered (ccc : Nat → Nat) (a b : Nat) : Prop :=
  0 < ccc b → ccc a ≤ ccc b

theorem ccc_bubble_head (ccc : Nat → Nat) (c : Nat) (acc : List Nat) :
    (ccc_bubble ccc c acc).head? = some c ∨
    (ccc_bubble ccc c acc).head? = acc.head? := by
  cases acc with
  | nil => left; rfl
  | cons p rest =>
    rw [ccc_bubble]
    split_ifs
    · left; rfl
    · right; rfl

theorem ccc_bubble_chain (ccc : Nat → Nat) (c : Nat) (acc : List Nat)
    (h : List.Chain' (flip (ccc_ordered ccc)) acc) :
    List.Chain' (flip (ccc_ordered ccc)) (ccc_bubble ccc c acc) := by
  induction acc with
  | nil => simp [ccc_bubble]
  | cons p rest ih =>
    rw [ccc_bubble]
    rcases List.chain'_cons'.mp h with ⟨hp, hrest⟩
    split_ifs with hle
    · refine List.chain'_cons'.mpr ⟨?_, h⟩
      intro b hb
      simp only [List.head?_cons, Option.mem_def, Option.some.injEq] at hb
      subst hb
      intro _
      exact hle
    · refine List.chain'_cons'.mpr ⟨?_, ih hrest⟩
      intro b hb
      rcases ccc_bubble_head ccc c rest with hh | hh


      · rw [hh] at hb
        simp only [Option.mem_def, Option.some.injEq] at hb
        subst hb
        intro _
        omega
      · rw [hh] at hb
        exact hp b hb

theorem reorder_rev_chain (ccc : Nat → Nat) (l : List Nat) :
    ∀ acc, List.Chain' (flip (ccc_ordered ccc)) acc →
      List.Chain' (flip (ccc_ordered ccc))
        (List.foldl
          (fun acc c => if 0 < ccc c then ccc_bubble ccc c acc else c :: acc)
          acc l) := by
  induction l with
  | nil => intro acc h; exact h
  | cons c rest ih =>
    intro acc h
    simp only [List.foldl_cons]
    by_cases hc : 0 < ccc c
    · rw [if_pos hc]
      exact ih _ (ccc_bubble_chain ccc c acc h)
    · rw [if_neg hc]
      refine ih _ (List.chain'_cons'.mpr ⟨?_, h⟩)
      intro b _
      intro h0
      omega

theorem reorder_chain (ccc : Nat → Nat) (l : List Nat) :
    List.Chain' (ccc_ordered ccc) (reorder ccc l) := by
  unfold reorder reorder_rev
  rw [List.chain'_reverse]
  exact reorder_rev_chain ccc l [] (by simp)

/-- C6: every output of to_nfd satisfies the canonical ordering
invariant: at each position i+1 whose scalar has positive combining
class, the predecessor's class is smaller or equal, or the predecessor
is a starter.  This holds for every normalization table. -/
theorem to_nfd_canonical_ordering (tbl : Nat → NormProp) (fuel : Nat)
    (s out : List Nat) (h : to_nfd tbl fuel s = some out) :
    ∀ i : Nat, i + 1 < out.length →
      0 < combining_class tbl (out.getD (i + 1) 0) →
      combining_class tbl (out.getD i 0) ≤
        combining_class tbl (out.getD (i + 1) 0) ∨
      combining_class tbl (out.getD i 0) = 0 := by
  have hout : ∃ d, out = reorder (combining_class tbl) d := by
    unfold to_nfd decompose at h
    rcases hd : decompose_run tbl NormForm.NFD fuel s with _ | d
    · rw [hd] at h; cases h
    · rw [hd] at h
      simp only [Option.some.injEq] at h
      exact ⟨d, h.symm⟩
  rcases hout with ⟨d, rfl⟩
  have hchain := reorder_chain (combining_class tbl) d
  intro i hi hpos
  left
  rw [List.chain'_iff_get] at hchain
  have hg := hchain i (by omega)
  rw [List.getD_eq_getElem _ _ (by omega : i < (reorder (combining_class tbl) d).length),
      List.getD_eq_getElem _ _ (by omega : i + 1 < (reorder (combining_class tbl) d).length)]
  rw [List.getD_eq_getElem _ _ (by omega : i + 1 < (reorder (combining_class tbl) d).length)] at hpos
  exact hg (by simpa using hpos)

/-- Witness for C6 with the all-zero table on [U+0041]. -/
theorem to_nfd_canonical_ordering_witness :
    to_nfd tbl_zero 0 [0x41] = some [0x41] ∧
    (∀ i : Nat, i + 1 < ([0x41] : List Nat).length →
      0 < combining_class tbl_zero (([0x41] : List Nat).getD (i + 1) 0) →
      combining_class tbl_zero (([0x41] : List Nat).getD i 0) ≤
        combining_class tbl_zero (([0x41] : List Nat).getD (i + 1) 0) ∨
      combining_class tbl_zero (([0x41] : List Nat).getD i 0) = 0) := by
  have hEq : to_nfd tbl_zero 0 [0x41] = some [0x41] := by
    rw [to_nfd, decompose, decompose_run, decompose_run]
    simp [is_precomposed_syllable, tbl_zero, reorder, reorder_rev,
      combining_class, SBase, SCount, NCount, VCount, TCount, LCount]
  exact ⟨hEq, to_nfd_canonical_ordering tbl_zero 0 [0x41] [0x41] hEq⟩

/-- C9: grapheme_length returns at least 1 on every input and returns 1
on the empty sequence, while grapheme_count of the empty sequence is 0:
the length of the first segment of empty text is never 0. -/
theorem grapheme_length_pos (gbp : Nat → GraphemeBreak) (emoji : Nat → Emoji)
    (s : List Nat) :
    1 ≤ grapheme_length gbp emoji s ∧
    grapheme_length gbp emoji ([] : List Nat) = 1 ∧
    grapheme_count gbp emoji ([] : List Nat) = 0 := by
  refine ⟨one_le_grapheme_length gbp emoji s, ?_, ?_⟩
  · rw [grapheme_length, grapheme_length_loop]
    simp
  · rw [grapheme_count]

end Unicodelib
